import Mathlib

/-!
A shallow embedding of the picol interpreter (src/picol.c): the token
parser, the escape decoder, the environment, the command registry and the
fuel-indexed evaluator, together with theorems checking the specification
claims against it.

Conventions of the embedding:
* C byte strings are `List Char` restricted to byte values; reading the
  NUL terminator (`b[strlen b]`) is modelled by `charAt`, which returns
  `'\0'` (that is, `Char.ofNat 0`) out of bounds.
* The C `int` values that track lengths are `Int` (they go negative in
  the source); machine-int arithmetic in the math command is modelled
  exactly over `Int` (the source leaves overflow undefined).
* Loops of the source become fuel-indexed structural recursions so that
  every definition evaluates in the kernel; the fuel bounds chosen are
  large enough for every loop that the source bounds.  Two scan loops of
  the source (`picolParseSep`, and the whitespace-swallow loop of
  `picolEscape`) have no length bound at all and run past the NUL
  terminator of the buffer; the model stops them at the first
  out-of-bounds position and the theorems for claim C9 record the
  discrepancy.
-/

/-- The `Char.ofNat 0`, the NUL terminator. -/
def nulC : Char := Char.ofNat 0

/-- The ASCII apostrophe, used in the interpreter's error messages. -/
def apost : Char := Char.ofNat 39

/-- Read byte `i` of a NUL-terminated buffer: out of bounds reads give `'\0'`,
as reading the terminator of a C string does. -/
def charAt (s : List Char) (i : Nat) : Char := s.getD i nulC

/-- C `isgraph` in the C locale: printable and not space, `0x21`..`0x7e`. -/
def isgraphB (c : Char) : Bool := decide (0x21 ≤ c.toNat ∧ c.toNat ≤ 0x7e)

/-- C `isspace` in the C locale. -/
def isspaceB (c : Char) : Bool := decide (c.toNat = 0x20 ∨ (9 ≤ c.toNat ∧ c.toNat ≤ 13))

/-- C `isalpha` in the C locale. -/
def isalphaB (c : Char) : Bool :=
  decide ((65 ≤ c.toNat ∧ c.toNat ≤ 90) ∨ (97 ≤ c.toNat ∧ c.toNat ≤ 122))

/-- C `isdigit`. -/
def isdigitB (c : Char) : Bool := decide (48 ≤ c.toNat ∧ c.toNat ≤ 57)

/-- C `isalnum`. -/
def isalnumB (c : Char) : Bool := isalphaB c || isdigitB c

/-- C `isxdigit`. -/
def isxdigitB (c : Char) : Bool :=
  isdigitB c || decide ((65 ≤ c.toNat ∧ c.toNat ≤ 70) ∨ (97 ≤ c.toNat ∧ c.toNat ≤ 102))

/-- The content of a buffer read as a C string: everything before the first
embedded NUL byte.  Used wherever the source calls `strlen`/`strdup`/`strcmp`. -/
def asCStr (s : List Char) : List Char := s.takeWhile (fun c => c ≠ nulC)

/-- C `toupper` in the C locale, on `int`. -/
def toupperI (c : Int) : Int := if 97 ≤ c ∧ c ≤ 122 then c - 32 else c

/-- The `src/picol.c` line 250:
`static int toxdigit(int c) { return isalpha(c) ? (10+(toupper(c)-'A')) : (c-'0'); }`. -/
def toxdigit (c : Int) : Int :=
  if (65 ≤ c ∧ c ≤ 90) ∨ (97 ≤ c ∧ c ≤ 122) then 10 + (toupperI c - 65) else c - 48

/-- C `atoi`: skip `isspace` bytes, one optional sign, then a decimal-digit
prefix; anything unparseable contributes 0.  (Out-of-`int`-range input is
undefined in C; the model is exact over `Int`.) -/
def atoiLoop : List Char → Int → Int
  | [], acc => acc
  | c :: cs, acc =>
    if isdigitB c then atoiLoop cs (acc * 10 + ((c.toNat : Int) - 48)) else acc

/-- C `atoi` on a buffer read as a C string. -/
def atoi (s : List Char) : Int :=
  match (asCStr s).dropWhile (fun c => isspaceB c) with
  | '-' :: r => - atoiLoop r 0
  | '+' :: r => atoiLoop r 0
  | r => atoiLoop r 0

/-! ## Parser (`struct picolParser` and the `picolParse*` functions) -/

/-- Token kinds, `enum {PT_ESC,PT_STR,PT_CMD,PT_VAR,PT_SEP,PT_EOL,PT_EOF}`. -/
inductive PType
  | esc | str | cmd | var | sep | eol | eof
deriving DecidableEq

/-- The `struct picolParser`.  The C struct carries pointers `text, pos, start,
end` and the remaining length `len`; the model indexes into `text`, and `len`
is the derived `PParser.len` (the C code keeps `len = strlen(text) - (pos -
text)` invariantly, all updates move `pos` and `len` together).  The field
`end` is named `stop` here (`end` is reserved in Lean). -/
structure PParser where
  text : List Char
  pos : Nat
  start : Nat
  stop : Nat
  ptype : PType
  insidequote : Bool
deriving DecidableEq

/-- Remaining input, the C field `p->len` (an `int`: it is -1 after the
separator scan runs past the terminator, see `sepLoop`). -/
def PParser.len (p : PParser) : Int := (p.text.length : Int) - p.pos

/-- The `picolInitParser`. -/
def picolInitParser (text : List Char) : PParser :=
  { text := text, pos := 0, start := 0, stop := 0, ptype := PType.eol, insidequote := false }

/-- The slice `text[start ..= stop]` of the last token.  `tlen` in
`picolEval` is `end - start + 1` clamped below at 0, which is the truncated
`Nat` subtraction `stop + 1 - start`. -/
def tokSlice (p : PParser) : List Char := (p.text.drop p.start).take (p.stop + 1 - p.start)

/-- Exit-or-continue test of the scan loop in `picolParseSep`:
`!isgraph(*p->pos) || (eol && *p->pos == eol)` (the `eol` sentinel is `';'`).
Note that the source loop has no length bound, and this condition holds at
the NUL terminator (`!isgraph('\0')`), so the C scan runs past the end of
the buffer whenever the input ends in a non-graphic byte; see claim C9. -/
def sepCond (text : List Char) (eol : Bool) (i : Nat) : Bool :=
  !(isgraphB (charAt text i)) || (eol && charAt text i == ';')

/-- The scan loop of `picolParseSep`.  The model adds the bound
`i ≤ text.length`, stopping one byte past the terminator (where the C code
reads out of bounds); past that point `p->len` is already negative, so no
later observation distinguishes the cut-off from a C run whose overrun
eventually meets a graphic byte in adjacent memory. -/
def sepLoop (text : List Char) (eol : Bool) : Nat → Nat → Nat
  | 0, i => i
  | fuel + 1, i =>
    if i ≤ text.length ∧ sepCond text eol i then sepLoop text eol fuel (i + 1) else i

/-- The `picolParseSep` (lines 97-102). -/
def picolParseSep (p : PParser) (eol : Bool) : PParser :=
  let i := sepLoop p.text eol (p.text.length + 2 - p.pos) p.pos
  { p with start := p.pos, pos := i, stop := i - 1,
           ptype := if eol then PType.eol else PType.sep }

/-- The bracket scan of `picolParseCommand` (lines 106-117): `level` counts
`[`/`]` nesting outside braces, `blevel` counts brace nesting, a backslash
skips one byte when at least two remain.  Returns the index where the scan
stops (at the closing `]`, or at end of input). -/
def cmdLoop (text : List Char) : Nat → Nat → Int → Int → Nat
  | 0, i, _, _ => i
  | fuel + 1, i, level, blevel =>
    if i < text.length then
      let c := charAt text i
      if c = '\\' then
        if i + 1 < text.length then cmdLoop text fuel (i + 2) level blevel
        else cmdLoop text fuel (i + 1) level blevel
      else if c = '[' then
        cmdLoop text fuel (i + 1) (if blevel = 0 then level + 1 else level) blevel
      else if c = ']' then
        if blevel = 0 then
          if level - 1 = 0 then i else cmdLoop text fuel (i + 1) (level - 1) blevel
        else cmdLoop text fuel (i + 1) level blevel
      else if c = '{' then cmdLoop text fuel (i + 1) level (blevel + 1)
      else if c = '}' then
        cmdLoop text fuel (i + 1) level (if blevel ≠ 0 then blevel - 1 else blevel)
      else cmdLoop text fuel (i + 1) level blevel
    else i

/-- The `picolParseCommand` (lines 104-122): skip the opening `[`, scan, emit
`PT_CMD` on the interior, and consume the final `]` when present. -/
def picolParseCommand (p : PParser) : PParser :=
  let s := p.pos + 1
  let i := cmdLoop p.text (p.text.length + 1) s 1 0
  let p1 := { p with start := s, stop := i - 1, ptype := PType.cmd }
  if charAt p.text i = ']' then { p1 with pos := i + 1 } else { p1 with pos := i }

/-- The identifier scan of `picolParseVar`: a run of `isalnum` or `'_'`
(the NUL terminator stops it). -/
def varLoop (text : List Char) : Nat → Nat → Nat
  | 0, i => i
  | fuel + 1, i =>
    if isalnumB (charAt text i) || charAt text i = '_' then varLoop text fuel (i + 1) else i

/-- The `picolParseVar` (lines 124-135): skip the `$`; an empty identifier run
yields the one-byte `PT_STR` token `"$"`, otherwise `PT_VAR` on the name. -/
def picolParseVar (p : PParser) : PParser :=
  let s := p.pos + 1
  let i := varLoop p.text (p.text.length + 1) s
  if s = i then
    { p with pos := i, start := i - 1, stop := i - 1, ptype := PType.str }
  else
    { p with pos := i, start := s, stop := i - 1, ptype := PType.var }

/-- The brace scan of `picolParseBrace` (lines 139-142): `{` increments the
level, a backslash with at least two bytes left skips one extra byte, `}`
decrements and stops at level 0. -/
def braceLoop (text : List Char) : Nat → Nat → Int → Nat
  | 0, i, _ => i
  | fuel + 1, i, level =>
    if i < text.length then
      let c := charAt text i
      if c = '{' then braceLoop text fuel (i + 1) (level + 1)
      else if i + 2 ≤ text.length ∧ c = '\\' then braceLoop text fuel (i + 2) level
      else if c = '}' then
        if level - 1 = 0 then i else braceLoop text fuel (i + 1) (level - 1)
      else braceLoop text fuel (i + 1) level
    else i

/-- The `picolParseBrace` (lines 137-147): skip the opening `{`, scan, emit
`PT_STR` on the interior, consume the closing `}` when input remains. -/
def picolParseBrace (p : PParser) : PParser :=
  let s := p.pos + 1
  let i := braceLoop p.text (p.text.length + 1) s 1
  let p1 := { p with start := s, stop := i - 1, ptype := PType.str }
  if i < p.text.length then { p1 with pos := i + 1 } else { p1 with pos := i }

/-- The byte scan of `picolParseString` (lines 156-173).  Returns the index
where the scan stops together with `true` when it stopped by consuming a
closing quote.  `$` and `[` always stop the scan (they are yielded as the
next token); an unquoted `;` or non-graphic byte stops it; inside quotes a
`"` closes the run; a backslash with two bytes left skips one extra byte. -/
def strLoop (text : List Char) (iq : Bool) : Nat → Nat → Nat × Bool
  | 0, i => (i, false)
  | fuel + 1, i =>
    if i < text.length then
      let c := charAt text i
      if c = '$' ∨ c = '[' then (i, false)
      else if c = '"' then
        if iq then (i, true) else strLoop text iq fuel (i + 1)
      else if c = '\\' then
        if i + 2 ≤ text.length then strLoop text iq fuel (i + 2)
        else strLoop text iq fuel (i + 1)
      else if (!(isgraphB c) || c == ';') && !iq then (i, false)
      else strLoop text iq fuel (i + 1)
    else (i, false)

/-- The `picolParseString` (lines 149-178): at a word boundary a `{` delegates to
the brace parser and a `"` opens a quoted run; the scan then emits `PT_ESC`
(escapes are preserved for the decoder). -/
def picolParseString (p : PParser) : PParser :=
  let newword := p.ptype = PType.sep ∨ p.ptype = PType.eol ∨ p.ptype = PType.str
  if newword ∧ charAt p.text p.pos = '{' then picolParseBrace p
  else
    let iq0 := if newword ∧ charAt p.text p.pos = '"' then true else p.insidequote
    let pos0 := if newword ∧ charAt p.text p.pos = '"' then p.pos + 1 else p.pos
    match strLoop p.text iq0 (p.text.length + 1) pos0 with
    | (i, true) =>
      { p with start := pos0, stop := i - 1, pos := i + 1, ptype := PType.esc,
               insidequote := false }
    | (i, false) =>
      { p with start := pos0, stop := i - 1, pos := i, ptype := PType.esc,
               insidequote := iq0 }

/-- The `picolParseComment` (lines 180-183): consume to the next newline. -/
def commentLoop (text : List Char) : Nat → Nat → Nat
  | 0, i => i
  | fuel + 1, i =>
    if i < text.length ∧ charAt text i ≠ '\n' then commentLoop text fuel (i + 1) else i

/-- The `picolGetToken` (lines 185-202): dispatch on the first unconsumed byte;
a comment at line start is skipped and the dispatch repeats; at exhausted
input emit one `PT_EOL` unless the previous token was `PT_EOL` or `PT_EOF`,
then `PT_EOF`. -/
def picolGetToken : Nat → PParser → PParser
  | 0, p => p
  | fuel + 1, p =>
    if p.pos < p.text.length then
      let c := charAt p.text p.pos
      if c = '\n' ∨ c = ';' then
        if p.insidequote then picolParseString p else picolParseSep p true
      else if c = '[' then picolParseCommand p
      else if c = '$' then picolParseVar p
      else if c = '#' then
        if p.ptype ≠ PType.eol then picolParseString p
        else picolGetToken fuel { p with pos := commentLoop p.text (p.text.length + 1) p.pos }
      else if isgraphB c || p.insidequote then picolParseString p
      else picolParseSep p false
    else
      { p with ptype := if p.ptype ≠ PType.eol ∧ p.ptype ≠ PType.eof
                        then PType.eol else PType.eof }

/-! ## Escape decoder (`picolEscape`, lines 252-281) -/

/-- The whitespace-swallow loop in the default case of `picolEscape`:
`for (s++, n--; n > 0 && !isgraph(*s); s++, n--);`.  Like `sepLoop`, the C
loop has no length bound and its test also holds at the NUL terminator
whenever `n` is still positive there; the model stops at the end of the
buffer (see claim C9 for the analogous parser overrun). -/
def skipNg : List Char → Int → List Char × Int
  | [], n => ([], n)
  | c :: cs, n => if n > 0 ∧ ¬ isgraphB c then skipNg cs (n - 1) else (c :: cs, n)

/-- One byte emitted by the `\xH` single-hex-digit path, which the source
computes as `toxdigit(isalpha(*s))` (line 268) — the *flag* returned by
`isalpha`, not the digit, goes into `toxdigit`.  C guarantees only
zero/nonzero for that flag; the model takes it as 1 for letters.  The
claims exercise the digit case, where the flag is 0 in every
implementation and the emitted byte is `(char)(0 - '0')`, stored two's
complement as 208. -/
def escSingleHexByte (h : Char) : Char :=
  Char.ofNat ((toxdigit (if isalphaB h then 1 else 0) % 256).toNat)

/-- The rewrite loop of `picolEscape` (lines 254-278), from the first
backslash on: returns the emitted bytes and the final value of `n`.
Copies decrement nothing; `\n`, `\r`, `\t` and `\<printable>` consume two
bytes and decrement once; `\x`/`\X` decrements twice and each consumed hex
digit decrements once more (see claims C2 and C3); a backslash before a
non-graphic byte swallows the following non-graphic run.  The fuel is
structural only; `picolEscape` passes enough for the whole buffer. -/
def escLoop : Nat → List Char → Int → List Char × Int
  | 0, _, n => ([], n)
  | fuel + 1, s, n =>
    match s with
    | [] => ([], n)
    | c :: cs =>
      if c = '\\' then
        match cs with
        | [] => ([], n - 1)
        | d :: cs2 =>
          if d = 'X' ∨ d = 'x' then
            match cs2 with
            | h1 :: h2 :: cs4 =>
              if isxdigitB h1 ∧ isxdigitB h2 then
                let b := Char.ofNat ((toxdigit (h1.toNat : Int)).toNat <<< 4 |||
                                     (toxdigit (h2.toNat : Int)).toNat)
                let r := escLoop fuel cs4 (n - 4)
                (b :: r.1, r.2)
              else if isxdigitB h1 then
                let r := escLoop fuel (h2 :: cs4) (n - 3)
                (escSingleHexByte h1 :: r.1, r.2)
              else escLoop fuel cs2 (n - 2)
            | [h1] =>
              if isxdigitB h1 then
                let r := escLoop fuel [] (n - 3)
                (escSingleHexByte h1 :: r.1, r.2)
              else escLoop fuel cs2 (n - 2)
            | [] => escLoop fuel cs2 (n - 2)
          else if d = 'n' then
            let r := escLoop fuel cs2 (n - 1); ('\n' :: r.1, r.2)
          else if d = 'r' then
            let r := escLoop fuel cs2 (n - 1); ('\r' :: r.1, r.2)
          else if d = 't' then
            let r := escLoop fuel cs2 (n - 1); ('\t' :: r.1, r.2)
          else if d = nulC then ([], n - 1)
          else
            if isgraphB d then
              let r := escLoop fuel cs2 (n - 1); (d :: r.1, r.2)
            else
              let sk := skipNg cs2 (n - 2)
              escLoop fuel sk.1 sk.2
      else
        let r := escLoop fuel cs n; (c :: r.1, r.2)

/-- The `picolEscape`: rewrite the buffer in place and return the new length.
`strchr` leaves everything before the first backslash untouched; the final
`b[n] = '\0'` makes the first `n` written bytes the resulting content (the
claims C2/C3 record that `n` undercounts the bytes written for `\x`
escapes, chopping the tail of the output). -/
def picolEscape (b : List Char) (n : Int) : List Char × Int :=
  let pre := b.takeWhile (fun c => c ≠ '\\')
  if pre.length = b.length then (b.take n.toNat, n)
  else
    let r := escLoop (b.length + 1) (b.drop pre.length) n
    ((pre ++ r.1).take r.2.toNat, r.2)

/-! ## Interpreter state, environment, registry -/

/-- Return codes, `enum {PICOL_OK, PICOL_ERR, PICOL_RETURN, PICOL_BREAK,
PICOL_CONTINUE}`. -/
inductive Code
  | ok | err | ret | brk | cont
deriving DecidableEq

/-- A call frame's variable list (`struct picolVar` chain): name, value. -/
abbrev Frame := List (List Char × List Char)

/-- The implementation attached to a registered command.  The C registry
stores a function pointer plus private data; the builtins are a closed set,
and a user procedure (`picolCommandCallProc`) carries its `(arglist, body)`
pair as private data. -/
inductive Cmd
  | math | set | puts | condIf | loopWhile | retcodes | procDef | procReturn
  | callproc (alist body : List Char)
deriving DecidableEq

/-- The `struct picolInterp`.  `callframe` is the frame stack, top first (the C
parent chain); it is non-null in every reachable state.  `output` collects
what `puts` writes to stdout (external to the C struct, recorded here so
theorems can state that no command ran). -/
structure Interp where
  level : Nat
  callframe : List Frame
  commands : List (List Char × Cmd)
  result : List Char
  output : List (List Char)
deriving DecidableEq

/-- The `picolSetResult`: `free` the old result and `strdup` the new one. -/
def picolSetResult (i : Interp) (s : List Char) : Interp :=
  { i with result := asCStr s }

/-- Linear search of one frame, `picolGetVar`'s loop: first entry whose name
compares `strcmp`-equal. -/
def lookupVar : Frame → List Char → Option (List Char)
  | [], _ => none
  | (n, v) :: t, name => if asCStr n = asCStr name then some v else lookupVar t name

/-- The `picolGetVar` (lines 213-217): linear search of the *current* frame
only; parent frames are never consulted. -/
def picolGetVar (i : Interp) (name : List Char) : Option (List Char) :=
  lookupVar (i.callframe.headD []) name

/-- Replace the value of the first entry matching `name` (the C code frees
`v->val` and stores a fresh `strdup(val)`, keeping the node in place). -/
def replaceFirstVar : Frame → List Char → List Char → Frame
  | [], _, _ => []
  | (n, v) :: t, name, val =>
    if asCStr n = asCStr name then (n, asCStr val) :: t
    else (n, v) :: replaceFirstVar t name val

/-- The `picolSetVar` (lines 219-230): overwrite an existing binding in the
current frame, else push a new node at the head of the frame's list. -/
def picolSetVar (i : Interp) (name val : List Char) : Interp :=
  let f := i.callframe.headD []
  let f' := if (lookupVar f name).isSome then replaceFirstVar f name val
            else (asCStr name, asCStr val) :: f
  { i with callframe := f' :: i.callframe.tail }

/-- Linear search of the command registry (`picolGetCommand`). -/
def lookupCmd : List (List Char × Cmd) → List Char → Option Cmd
  | [], _ => none
  | (n, c) :: t, name => if asCStr n = asCStr name then some c else lookupCmd t name

/-- The `picolGetCommand` (lines 232-236). -/
def picolGetCommand (i : Interp) (name : List Char) : Option Cmd :=
  lookupCmd i.commands name

/-- Error message `"Command '%s' already defined"`. -/
def errAlreadyDefined (name : List Char) : List Char :=
  "Command ".data ++ [apost] ++ asCStr name ++ [apost] ++ " already defined".data

/-- Error message `"No such variable '%s'"`. -/
def errNoSuchVar (name : List Char) : List Char :=
  "No such variable ".data ++ [apost] ++ asCStr name ++ [apost]

/-- Error message `"No such command '%s'"`. -/
def errNoSuchCmd (name : List Char) : List Char :=
  "No such command ".data ++ [apost] ++ asCStr name ++ [apost]

/-- Error message `"Proc '%s' called with wrong arg num"`. -/
def errProcArity (name : List Char) : List Char :=
  "Proc ".data ++ [apost] ++ asCStr name ++ [apost] ++ " called with wrong arg num".data

/-- Error message `"Wrong number of args for %s"` (`picolArityErr`). -/
def errArity (name : List Char) : List Char :=
  "Wrong number of args for ".data ++ asCStr name

/-- The `picolRegisterCommand` (lines 238-248): an existing name is an error
(`picolErr` sets the result and returns `PICOL_ERR`), otherwise the command
is pushed at the head of the registry. -/
def picolRegisterCommand (i : Interp) (name : List Char) (c : Cmd) : Code × Interp :=
  if (picolGetCommand i name).isSome then
    (Code.err, { i with result := errAlreadyDefined name })
  else
    (Code.ok, { i with commands := (asCStr name, c) :: i.commands })

/-- The `picolInitInterp` (lines 204-211): level 0, one empty global frame, an
empty registry, empty result. -/
def picolInitInterp : Interp :=
  { level := 0, callframe := [[]], commands := [], result := [], output := [] }

/-- The names and handlers registered by `picolRegisterCoreCommands`
(lines 465-477), in registration order. -/
def coreCmds : List (List Char × Cmd) :=
  [("+".data, Cmd.math), ("-".data, Cmd.math), ("*".data, Cmd.math), ("/".data, Cmd.math),
   (">".data, Cmd.math), (">=".data, Cmd.math), ("<".data, Cmd.math), ("<=".data, Cmd.math),
   ("==".data, Cmd.math), ("!=".data, Cmd.math),
   ("set".data, Cmd.set), ("puts".data, Cmd.puts), ("if".data, Cmd.condIf),
   ("while".data, Cmd.loopWhile), ("break".data, Cmd.retcodes),
   ("continue".data, Cmd.retcodes), ("proc".data, Cmd.procDef),
   ("return".data, Cmd.procReturn)]

/-- The `picolRegisterCoreCommands`: register each core command (the C code
ignores the return codes; none can fail on a fresh interpreter). -/
def picolRegisterCoreCommands (i : Interp) : Interp :=
  coreCmds.foldl (fun j nc => (picolRegisterCommand j nc.1 nc.2).2) i

/-- A fresh interpreter as `main` builds it: `picolInitInterp` followed by
`picolRegisterCoreCommands`. -/
def freshInterp : Interp := picolRegisterCoreCommands picolInitInterp

/-! ## Evaluator (`picolEval`, lines 283-350, and the command handlers) -/

/-- The two ways the embedding falls off the C semantics: `div` is fuel
exhaustion (the source diverges or needs more fuel than supplied), and
`crash` marks undefined behaviour the source can reach: `interpEmpty` is
the evaluator's interpolation branch reading `argv[argc-1]` with `argc == 0`
(see claim C10), `divByZero` is `a / b` with `b == 0` in the math command. -/
inductive CrashKind
  | interpEmpty | divByZero
deriving DecidableEq

/-- Result of running the evaluator or a command handler. -/
inductive EvalRes
  | div
  | crash (k : CrashKind)
  | done (c : Code) (i : Interp)
deriving DecidableEq

/-- The type of the evaluator (`picolEval` at some fuel). -/
abbrev EvalFn := Interp → List Char → EvalRes

/-- The `picolArityErr` (lines 352-354). -/
def picolArityErr (i : Interp) (name : List Char) : EvalRes :=
  EvalRes.done Code.err { i with result := errArity name }

/-- The operator dispatch value of `picolCommandMath` (line 359):
`argv[0][0] ^ argv[0][1] << 8` (reading the terminator for one-byte names). -/
def mathOpcode (w : List Char) : Nat :=
  (charAt w 0).toNat ^^^ ((charAt w 1).toNat <<< 8)

/-- The operator table of `picolCommandMath` (lines 360-369), exact over
`Int` (the source leaves `int` overflow undefined); comparisons are the C
relational operators, 0 or 1; division by zero is undefined in the source
(`none` here).  `Int.div` truncates toward zero like C `/`.  When no
operator matches, the C `c` keeps its initializer 0. -/
def mathCompute (o : Nat) (a b : Int) : Option Int :=
  if o = '+'.toNat then some (a + b)
  else if o = '-'.toNat then some (a - b)
  else if o = '*'.toNat then some (a * b)
  else if o = '/'.toNat then (if b = 0 then none else some (Int.tdiv a b))
  else if o = '>'.toNat then some (if a > b then 1 else 0)
  else if o = '>'.toNat ^^^ ('='.toNat <<< 8) then some (if a ≥ b then 1 else 0)
  else if o = '<'.toNat then some (if a < b then 1 else 0)
  else if o = '<'.toNat ^^^ ('='.toNat <<< 8) then some (if a ≤ b then 1 else 0)
  else if o = '='.toNat ^^^ ('='.toNat <<< 8) then some (if a = b then 1 else 0)
  else if o = '!'.toNat ^^^ ('='.toNat <<< 8) then some (if a ≠ b then 1 else 0)
  else some 0

/-- The `snprintf(buf,sizeof(buf),"%d",c)` with `char buf[(sizeof(int)*CHAR_BIT)/3]`,
that is `buf[10]`: at most 9 characters of the decimal representation are
kept (see claim C4). -/
def mathFormat (c : Int) : List Char := (toString c).data.take 9

/-- The `picolCommandMath` (lines 356-373). -/
def picolCommandMath (i : Interp) (argv : List (List Char)) : EvalRes :=
  if argv.length ≠ 3 then picolArityErr i (argv.headD [])
  else
    let o := mathOpcode (argv.getD 0 [])
    let a := atoi (argv.getD 1 [])
    let b := atoi (argv.getD 2 [])
    match mathCompute o a b with
    | none => EvalRes.crash CrashKind.divByZero
    | some c => EvalRes.done Code.ok (picolSetResult i (mathFormat c))

/-- The `picolCommandSet` (lines 375-380). -/
def picolCommandSet (i : Interp) (argv : List (List Char)) : EvalRes :=
  if argv.length ≠ 3 then picolArityErr i (argv.headD [])
  else
    let i1 := picolSetVar i (argv.getD 1 []) (argv.getD 2 [])
    EvalRes.done Code.ok (picolSetResult i1 (argv.getD 2 []))

/-- The `picolCommandPuts` (lines 382-386): write `argv[1]` to stdout; the
result is left untouched. -/
def picolCommandPuts (i : Interp) (argv : List (List Char)) : EvalRes :=
  if argv.length ≠ 2 then picolArityErr i (argv.headD [])
  else EvalRes.done Code.ok { i with output := i.output ++ [asCStr (argv.getD 1 [])] }

/-- The `picolCommandIf` (lines 388-394), parameterized by the evaluator used
for the condition and branch scripts. -/
def picolCommandIf (ev : EvalFn) (i : Interp) (argv : List (List Char)) : EvalRes :=
  if argv.length ≠ 3 ∧ argv.length ≠ 5 then picolArityErr i (argv.headD [])
  else
    match ev i (argv.getD 1 []) with
    | EvalRes.done Code.ok i1 =>
      if atoi i1.result ≠ 0 then ev i1 (argv.getD 2 [])
      else if argv.length = 5 then ev i1 (argv.getD 4 [])
      else EvalRes.done Code.ok i1
    | r => r

/-- The loop of `picolCommandWhile` (lines 397-403).  Note the source's
if-else chain has no arm for `PICOL_BREAK`: when the body returns `BREAK`
nothing runs, the `for (; argc == 3; )` guard is still true, and the loop
starts over — the original picol's `return PICOL_OK` for `BREAK` was lost
in the refactoring (see claim C6).  This model reproduces that fall-through:
the `brk` case recurses like `ok`/`cont`. -/
def whileLoop (ev : EvalFn) : Nat → Interp → List Char → List Char → EvalRes
  | 0, _, _, _ => EvalRes.div
  | fuel + 1, i, cond, body =>
    match ev i cond with
    | EvalRes.done c i1 =>
      if c ≠ Code.ok then EvalRes.done c i1
      else if atoi i1.result = 0 then EvalRes.done Code.ok i1
      else
        match ev i1 body with
        | EvalRes.done c2 i2 =>
          if c2 = Code.cont then whileLoop ev fuel i2 cond body
          else if c2 = Code.ok then whileLoop ev fuel i2 cond body
          else if c2 ≠ Code.brk then EvalRes.done c2 i2
          else whileLoop ev fuel i2 cond body
        | r => r
    | r => r

/-- The `picolCommandWhile` (lines 396-404): the loop runs only when
`argc == 3`; otherwise (the guard fails immediately) the arity error. -/
def picolCommandWhile (ev : EvalFn) (gfuel : Nat) (i : Interp)
    (argv : List (List Char)) : EvalRes :=
  if argv.length = 3 then whileLoop ev gfuel i (argv.getD 1 []) (argv.getD 2 [])
  else picolArityErr i (argv.getD 0 [])

/-- The `picolCommandRetCodes` (lines 406-411): dispatch on the command's own
name. -/
def picolCommandRetCodes (i : Interp) (argv : List (List Char)) : EvalRes :=
  if argv.length ≠ 1 then picolArityErr i (argv.headD [])
  else if asCStr (argv.getD 0 []) = "break".data then EvalRes.done Code.brk i
  else if asCStr (argv.getD 0 []) = "continue".data then EvalRes.done Code.cont i
  else EvalRes.done Code.ok i

/-- The `picolCommandReturn` (lines 459-463). -/
def picolCommandReturn (i : Interp) (argv : List (List Char)) : EvalRes :=
  if argv.length ≠ 1 ∧ argv.length ≠ 2 then picolArityErr i (argv.headD [])
  else
    EvalRes.done Code.ret
      (picolSetResult i (if argv.length = 2 then argv.getD 1 [] else []))

/-- The `picolCommandProc` (lines 451-457): register `argv[1]` with the
user-proc dispatcher and `(strdup(argv[2]), strdup(argv[3]))` as private
data; the register call's code (OK, or ERR for a duplicate) is returned. -/
def picolCommandProc (i : Interp) (argv : List (List Char)) : EvalRes :=
  if argv.length ≠ 4 then picolArityErr i (argv.headD [])
  else
    let r := picolRegisterCommand i (argv.getD 1 [])
               (Cmd.callproc (asCStr (argv.getD 2 [])) (asCStr (argv.getD 3 [])))
    EvalRes.done r.1 r.2

/-- Split of the formal-argument list in `picolCommandCallProc` (lines
432-439): tokens are maximal runs between `' '` bytes, empty runs ignored. -/
def splitSpAux : List Char → List Char → List (List Char)
  | [], acc => [acc.reverse]
  | c :: cs, acc =>
    if c = ' ' then acc.reverse :: splitSpAux cs [] else splitSpAux cs (c :: acc)

/-- The formal names of a proc's argument list. -/
def splitSp (s : List Char) : List (List Char) :=
  (splitSpAux s []).filter (fun w => w ≠ [])

/-- The `picolDropCallFrame` (lines 413-423): free the top frame's variables
and pop it. -/
def picolDropCallFrame (i : Interp) : Interp :=
  { i with callframe := i.callframe.tail }

/-- The `picolCommandCallProc` (lines 425-449): push a fresh frame, bind each
formal to the matching actual, evaluate the body, turn `RETURN` into `OK`,
and drop the frame on every exit path.  The source signals the arity error
as soon as the formals outnumber `argc-1` (having bound a prefix) or after
the loop when they undernumber it; the partially filled frame is dropped
unobserved, so the model binds only on a full match. -/
def picolCommandCallProc (ev : EvalFn) (alist body : List Char) (i : Interp)
    (argv : List (List Char)) : EvalRes :=
  let i1 := { i with callframe := [] :: i.callframe }
  let formals := splitSp alist
  if formals.length ≠ argv.length - 1 then
    EvalRes.done Code.err
      { picolDropCallFrame i1 with result := errProcArity (argv.getD 0 []) }
  else
    let i2 := (formals.zip (argv.drop 1)).foldl
                (fun j nv => picolSetVar j nv.1 nv.2) i1
    match ev i2 body with
    | EvalRes.done c i3 =>
      EvalRes.done (if c = Code.ret then Code.ok else c) (picolDropCallFrame i3)
    | r => r

/-- Invoke the handler a registry entry carries, `c->func(i,argc,argv,
c->privdata)` (line 324).  `ev` is the evaluator the handlers recurse
through, `gfuel` bounds the `while` loop's iterations. -/
def dispatchCmd (ev : EvalFn) (gfuel : Nat) (c : Cmd) (i : Interp)
    (argv : List (List Char)) : EvalRes :=
  match c with
  | Cmd.math => picolCommandMath i argv
  | Cmd.set => picolCommandSet i argv
  | Cmd.puts => picolCommandPuts i argv
  | Cmd.condIf => picolCommandIf ev i argv
  | Cmd.loopWhile => picolCommandWhile ev gfuel i argv
  | Cmd.retcodes => picolCommandRetCodes i argv
  | Cmd.procDef => picolCommandProc i argv
  | Cmd.procReturn => picolCommandReturn i argv
  | Cmd.callproc alist body => picolCommandCallProc ev alist body i argv

/-- What one iteration of `picolEval`'s token loop does next: stop the loop
with a result, or continue with updated state. -/
inductive StepRes
  | stop (r : EvalRes)
  | next (i : Interp) (p : PParser) (prev : PType) (argv : List (List Char))

/-- Word-appending step of `picolEval` (lines 334-345): after a separator
or end of line the word starts a new `argv` entry; otherwise it is
concatenated onto the last entry (interpolation), whose current length the
source takes with `strlen`.  Reading `argv[argc-1]` with an empty `argv`
is the undefined case of claim C10. -/
def appendTok (i : Interp) (p : PParser) (prevtype : PType)
    (argv : List (List Char)) (w : List Char) : StepRes :=
  if prevtype = PType.sep ∨ prevtype = PType.eol then
    StepRes.next i p p.ptype (argv ++ [w])
  else
    match argv.getLast? with
    | none => StepRes.stop (EvalRes.crash CrashKind.interpEmpty)
    | some last => StepRes.next i p p.ptype (argv.dropLast ++ [asCStr last ++ w])

/-- One iteration of `picolEval`'s token loop (lines 289-346): read a
token, materialize its slice, substitute (`PT_VAR` from the environment,
`PT_CMD` through a recursive eval, `PT_ESC` through the escape decoder,
`PT_STR` verbatim), skip separators, and on `PT_EOL` invoke the assembled
command. -/
def tokenStep (ev : EvalFn) (gfuel : Nat) (i : Interp) (p : PParser)
    (prevtype : PType) (argv : List (List Char)) : StepRes :=
  let p1 := picolGetToken (p.text.length + 2) p
  if p1.ptype = PType.eof then StepRes.stop (EvalRes.done Code.ok i)
  else if p1.ptype = PType.sep then StepRes.next i p1 p1.ptype argv
  else if p1.ptype = PType.eol then
    match argv with
    | [] => StepRes.next i p1 p1.ptype []
    | a0 :: _ =>
      match picolGetCommand i a0 with
      | none => StepRes.stop (EvalRes.done Code.err { i with result := errNoSuchCmd a0 })
      | some c =>
        match dispatchCmd ev gfuel c i argv with
        | EvalRes.done Code.ok i2 => StepRes.next i2 p1 p1.ptype []
        | r => StepRes.stop r
  else
    let t := tokSlice p1
    if p1.ptype = PType.var then
      match picolGetVar i t with
      | none => StepRes.stop (EvalRes.done Code.err { i with result := errNoSuchVar t })
      | some v => appendTok i p1 prevtype argv (asCStr v)
    else if p1.ptype = PType.cmd then
      match ev i t with
      | EvalRes.done Code.ok i2 => appendTok i2 p1 prevtype argv (asCStr i2.result)
      | EvalRes.done c i2 => StepRes.stop (EvalRes.done c i2)
      | r => StepRes.stop r
    else if p1.ptype = PType.esc then
      appendTok i p1 prevtype argv (picolEscape t (t.length : Int)).1
    else
      appendTok i p1 prevtype argv t

/-- The token loop of `picolEval`, iterated on its own fuel (the loop runs
at most one iteration per input byte plus the final `EOL`/`EOF`). -/
def tokenLoop (ev : EvalFn) (gfuel : Nat) :
    Nat → Interp → PParser → PType → List (List Char) → EvalRes
  | 0, _, _, _, _ => EvalRes.div
  | fuel + 1, i, p, prevtype, argv =>
    match tokenStep ev gfuel i p prevtype argv with
    | StepRes.stop r => r
    | StepRes.next i1 p1 prev1 argv1 => tokenLoop ev gfuel fuel i1 p1 prev1 argv1

/-- The `picolEval` at a given fuel: reset the result, parse the source (as a C
string) and run the token loop; nested evaluations (command substitution,
`if`/`while`/proc bodies) run at one fuel less. -/
def picolEvalF : Nat → EvalFn
  | 0 => fun _ _ => EvalRes.div
  | fuel + 1 => fun i s =>
    let s1 := asCStr s
    let i0 := picolSetResult i []
    let p := picolInitParser s1
    tokenLoop (picolEvalF fuel) fuel (s1.length + 3) i0 p p.ptype []

/-- The `picolEval (fuel) i s`: the evaluator with explicit fuel. -/
def picolEval (fuel : Nat) (i : Interp) (s : List Char) : EvalRes :=
  picolEvalF fuel i s

/-! ## Proof infrastructure -/

/-- An evaluator preserves the call-frame stack depth: whenever it returns,
whatever the code, the stack is as deep as before (and still non-empty).
The non-emptiness premise matches the source's invariant that
`i->callframe` is never null. -/
def DepthPres (ev : EvalFn) : Prop :=
  ∀ i s c i2, i.callframe ≠ [] → ev i s = EvalRes.done c i2 →
    i2.callframe.length = i.callframe.length ∧ i2.callframe ≠ []

/-- An evaluator never reaches the undefined interpolation-onto-empty-argv
case (claim C10). -/
def NoInterpCrash (ev : EvalFn) : Prop :=
  ∀ i s, ev i s ≠ EvalRes.crash CrashKind.interpEmpty

/-- The loop-head invariant of `picolEval`'s token loop: when the previous
token kind is neither `PT_SEP` nor `PT_EOL`, at least one word has been
assembled. -/
def ArgInv (prev : PType) (argv : List (List Char)) : Prop :=
  prev ≠ PType.sep → prev ≠ PType.eol → argv ≠ []

/-- A two-script evaluator stub used to drive `whileLoop` in the analysis
of claim C6: the condition script `"1"` evaluates to `OK` with result `"1"`,
and any other script (the body, `"break"`) to `PICOL_BREAK`. -/
def breakTestEval : EvalFn := fun j s =>
  if s = "1".data then EvalRes.done Code.ok { j with result := "1".data }
  else EvalRes.done Code.brk j

/-! ## Claim C1 -/

/-- Claim C1, as stated, is false: the script
`if { == 1 1 } { set r yes } { set r no }` assembles four words, and
`picolCommandIf` accepts only 3 or 5 arguments (the 5-argument form carries
a literal `else` word), so a fresh interpreter answers `ERR` with
`Wrong number of args for if`, never `OK`, and `r` stays unbound. -/
theorem C1_if_four_args_counterexample :
    picolEval 10 freshInterp ("if { == 1 1 } { set r yes } { set r no }".data) =
      EvalRes.done Code.err
        { freshInterp with result := "Wrong number of args for if".data } ∧
    picolGetVar { freshInterp with result := "Wrong number of args for if".data }
      ("r".data) = none ∧
    Code.err ≠ Code.ok ∧
    "Wrong number of args for if".data ≠ "yes".data := by
  refine ⟨by decide, by decide, by decide, by decide⟩

/-- Claim C1 amended: with the literal `else` word —
`if { == 1 1 } { set r yes } else { set r no }` — a fresh interpreter
returns `OK` with result `yes` and leaves `r` bound to `yes` in the current
frame. -/
theorem C1_if_else_amended :
    picolEval 10 freshInterp ("if { == 1 1 } { set r yes } else { set r no }".data) =
      EvalRes.done Code.ok
        { freshInterp with callframe := [[("r".data, "yes".data)]],
                           result := "yes".data } ∧
    picolGetVar
      { freshInterp with callframe := [[("r".data, "yes".data)]], result := "yes".data }
      ("r".data) = some ("yes".data) := by
  constructor
  · decide
  · decide

/-! ## Claim C2 -/

/-- Claim C2 is false on the code: decoding the five-byte buffer `\x41Z`
does emit the byte `0x41` (`A`) and copy `Z`, but the `\xHH` branch
decrements `n` by 4 while consuming four bytes and emitting one, so the
returned length is 1 (not 2) and the final `b[n] = '\0'` chops the copied
`Z` off the result.  The decoder returns `("A", 1)` where the claim
requires `("AZ", 2)`. -/
theorem C2_escape_xHH_truncates :
    picolEscape ("\\x41Z".data) 5 = ("A".data, 1) ∧
    ("A".data, (1 : Int)) ≠ ("AZ".data, (2 : Int)) := by
  constructor
  · decide
  · decide

/-! ## Claim C3 -/

/-- Claim C3 is false on the code: for the buffer `\x5,` (one hex digit,
then a non-hex byte) the single-digit branch computes
`toxdigit(isalpha(*s))`, not `toxdigit(*s)`; for the digit `5` the
`isalpha` flag is 0 in every C implementation, so the emitted byte is
`(char)(0 - '0')`, i.e. 208 two's complement — not the nibble value 5
(and the over-decremented length 1 also drops the following `,`). -/
theorem C3_escape_single_hex_wrong_byte :
    picolEscape ("\\x5,".data) 4 = ([Char.ofNat 208], 1) ∧
    Char.ofNat 208 ≠ Char.ofNat 5 := by
  constructor
  · decide
  · decide

/-! ## Claim C4 -/

/-- Claim C4 is false on the code for results of ten or more characters:
`picolCommandMath` formats into `char buf[(sizeof(int)*CHAR_BIT)/3]`, i.e.
`buf[10]`, so `snprintf` keeps at most 9 characters.  `+ 1000000000 0`
(no overflow, both operands well inside `int`) yields the result string
`100000000` instead of the decimal representation `1000000000`. -/
theorem C4_math_result_truncated :
    picolCommandMath freshInterp ["+".data, "1000000000".data, "0".data] =
      EvalRes.done Code.ok { freshInterp with result := "100000000".data } ∧
    "100000000".data ≠ "1000000000".data ∧
    picolEval 5 freshInterp ("+ 1000000000 0".data) =
      EvalRes.done Code.ok { freshInterp with result := "100000000".data } := by
  refine ⟨by decide, by decide, by decide⟩

/-! ## Claim C9 -/

/-- Claim C9 is false on the code: the scan loop of `picolParseSep` has no
length bound, and its continue-condition `!isgraph(*p->pos)` also holds at
the NUL terminator and at every `'\0'` byte after it.  For the input `" "`
the condition holds at every index whatsoever, so the C loop cannot stop
within the buffer: it dereferences past the end (undefined behaviour; it
never terminates in the idealized memory where out-of-bounds bytes read
0).  The model's `sepLoop` cut-off stops only one past the terminator:
position 2 of a length-1 input. -/
theorem C9_parse_sep_overrun :
    (∀ k : Nat, sepCond (" ".data) false k = true) ∧
    sepLoop (" ".data) false 3 0 = 2 ∧ (" ".data).length = 1 ∧
    picolGetToken 3 (picolInitParser (" ".data)) =
      picolParseSep (picolInitParser (" ".data)) false := by
  refine ⟨?_, by decide, by decide, by decide⟩
  intro k
  match k with
  | 0 => decide
  | k + 1 =>
    have h : charAt (" ".data) (k + 1) = nulC := by
      have : (" ".data).length ≤ k + 1 := by simp
      exact List.getD_eq_default _ _ this
    simp only [sepCond, h]
    decide

/-! ## Claim C6 -/

set_option maxHeartbeats 2000000 in
/-- Claim C6 is false on the code in its `BREAK` clause: the if-else chain
in `picolCommandWhile` has no arm left for `PICOL_BREAK` (the original
picol's `return PICOL_OK` was lost in the refactoring), so a body that
returns `BREAK` falls through, the `for (; argc == 3; )` guard — still
true — starts the next iteration, and a loop whose condition stays
non-zero never terminates.  With an evaluator stub whose condition yields
`OK`/`"1"` and whose body yields `BREAK`, `whileLoop` exhausts any fuel
(the model's rendering of divergence); `while { == 1 1 } { break }` on a
fresh interpreter does the same, where the claim requires `OK`. -/
theorem C6_break_falls_through :
    (∀ (f : Nat) (j : Interp),
      whileLoop breakTestEval f j ("1".data) ("break".data) = EvalRes.div) ∧
    picolEval 12 freshInterp ("while { == 1 1 } { break }".data) = EvalRes.div := by
  constructor
  · intro f
    induction f with
    | zero => intro j; rfl
    | succ n ih =>
      intro j
      simp only [whileLoop, breakTestEval]
      simp
      exact ih _
  · decide

/-! ## Claim C7 -/

/-- Claim C7: whenever the next token is `PT_VAR` and its name has no
binding in the current frame, the token loop stops at once — no command on
that line runs — with code `ERR` and result `No such variable '<name>'`;
the interpreter is otherwise untouched.  Instantiated by the witness on
`puts $undef`, and proved below in general and for the end-to-end script. -/
theorem C7_unbound_var_error :
    (∀ (ev : EvalFn) (gfuel tf : Nat) (i : Interp) (p p1 : PParser) (prev : PType)
        (argv : List (List Char)),
      picolGetToken (p.text.length + 2) p = p1 →
      p1.ptype = PType.var →
      picolGetVar i (tokSlice p1) = none →
      tokenLoop ev gfuel (tf + 1) i p prev argv =
        EvalRes.done Code.err { i with result := errNoSuchVar (tokSlice p1) }) ∧
    picolEval 6 freshInterp ("puts $undef".data) =
      EvalRes.done Code.err
        { freshInterp with result := errNoSuchVar ("undef".data) } := by
  constructor
  · intro ev gfuel tf i p p1 prev argv h1 h2 h3
    simp [tokenLoop, tokenStep, h1, h2, h3]
  · decide

/-- Witness for C7: on the one-token script `$u` (fresh interpreter, no
binding for `u`), the general theorem applies with every hypothesis checked
by `decide`, giving the `No such variable 'u'` error without any command
being invoked. -/
theorem C7_unbound_var_error_witness :
    tokenLoop (picolEvalF 0) 0 4 freshInterp (picolInitParser ("$u".data))
        PType.eol [] =
      EvalRes.done Code.err
        { freshInterp with
          result := errNoSuchVar (tokSlice (PParser.mk ("$u".data) 2 1 1 PType.var false)) } :=
  C7_unbound_var_error.1 (picolEvalF 0) 0 3 freshInterp (picolInitParser ("$u".data))
    (PParser.mk ("$u".data) 2 1 1 PType.var false)
    PType.eol [] (by decide) (by decide) (by decide)

/-! ## Claim C5: frame-depth preservation lemmas -/

/-- The `picolSetVar` rebuilds the top frame in place: the stack depth is
unchanged (given the source's invariant that the frame stack is non-null). -/
theorem picolSetVar_depth (i : Interp) (n v : List Char) (h : i.callframe ≠ []) :
    (picolSetVar i n v).callframe.length = i.callframe.length ∧
    (picolSetVar i n v).callframe ≠ [] := by
  match hcf : i.callframe with
  | [] => exact absurd hcf h
  | f :: t =>
    refine ⟨?_, by simp [picolSetVar]⟩
    simp [picolSetVar, hcf]

/-- Binding a list of proc formals by repeated `picolSetVar` keeps the
stack depth. -/
theorem foldl_setVar_depth (l : List (List Char × List Char)) (i : Interp)
    (h : i.callframe ≠ []) :
    ((l.foldl (fun j nv => picolSetVar j nv.1 nv.2) i).callframe.length =
        i.callframe.length) ∧
    (l.foldl (fun j nv => picolSetVar j nv.1 nv.2) i).callframe ≠ [] := by
  induction l generalizing i with
  | nil => exact ⟨rfl, h⟩
  | cons hd tl ih =>
    simp only [List.foldl_cons]
    obtain ⟨h1, h2⟩ := picolSetVar_depth i hd.1 hd.2 h
    obtain ⟨h3, h4⟩ := ih _ h2
    exact ⟨h3.trans h1, h4⟩

/-- The handlers that evaluate no scripts (`+`..`!=`, `set`, `puts`,
`break`/`continue`, `return`, `proc`) preserve the frame-stack depth. -/
theorem simpleCmd_depth (ev : EvalFn) (gfuel : Nat) (cm : Cmd) (i : Interp)
    (argv : List (List Char)) (cc : Code) (i2 : Interp) (hne : i.callframe ≠ [])
    (hcm : cm = Cmd.math ∨ cm = Cmd.set ∨ cm = Cmd.puts ∨ cm = Cmd.retcodes ∨
           cm = Cmd.procDef ∨ cm = Cmd.procReturn)
    (he : dispatchCmd ev gfuel cm i argv = EvalRes.done cc i2) :
    i2.callframe.length = i.callframe.length ∧ i2.callframe ≠ [] := by
  have h := he
  rcases hcm with rfl | rfl | rfl | rfl | rfl | rfl
  · simp only [dispatchCmd, picolCommandMath, picolArityErr, picolSetResult] at h
    split at h
    · cases h; exact ⟨rfl, hne⟩
    · split at h
      · exact absurd h (by simp)
      · cases h; exact ⟨rfl, hne⟩
  · simp only [dispatchCmd, picolCommandSet, picolArityErr, picolSetResult] at h
    split at h
    · cases h; exact ⟨rfl, hne⟩
    · cases h
      exact picolSetVar_depth i _ _ hne
  · simp only [dispatchCmd, picolCommandPuts, picolArityErr] at h
    split at h
    · cases h; exact ⟨rfl, hne⟩
    · cases h; exact ⟨rfl, hne⟩
  · simp only [dispatchCmd, picolCommandRetCodes, picolArityErr] at h
    split at h
    · cases h; exact ⟨rfl, hne⟩
    · split at h
      · cases h; exact ⟨rfl, hne⟩
      · split at h
        · cases h; exact ⟨rfl, hne⟩
        · cases h; exact ⟨rfl, hne⟩
  · simp only [dispatchCmd, picolCommandProc, picolArityErr,
      picolRegisterCommand] at h
    split at h
    · cases h; exact ⟨rfl, hne⟩
    · split at h
      · cases h; exact ⟨rfl, hne⟩
      · cases h; exact ⟨rfl, hne⟩
  · simp only [dispatchCmd, picolCommandReturn, picolArityErr, picolSetResult] at h
    split at h
    · cases h; exact ⟨rfl, hne⟩
    · cases h; exact ⟨rfl, hne⟩

/-- The `picolCommandIf` preserves the frame-stack depth when its evaluator
does. -/
theorem ifCmd_depth (ev : EvalFn) (hev : DepthPres ev) (i : Interp)
    (argv : List (List Char)) (cc : Code) (i2 : Interp) (hne : i.callframe ≠ [])
    (he : picolCommandIf ev i argv = EvalRes.done cc i2) :
    i2.callframe.length = i.callframe.length ∧ i2.callframe ≠ [] := by
  simp only [picolCommandIf, picolArityErr] at he
  split at he
  · cases he; exact ⟨rfl, hne⟩
  · cases hc : ev i (argv.getD 1 []) with
    | done c1 i1 =>
      rw [hc] at he
      obtain ⟨l1, n1⟩ := hev i (argv.getD 1 []) c1 i1 hne hc
      cases c1 with
      | ok =>
        simp only at he
        split at he
        · obtain ⟨l2, n2⟩ := hev i1 (argv.getD 2 []) cc i2 n1 he
          exact ⟨l2.trans l1, n2⟩
        · split at he
          · obtain ⟨l2, n2⟩ := hev i1 (argv.getD 4 []) cc i2 n1 he
            exact ⟨l2.trans l1, n2⟩
          · cases he; exact ⟨l1, n1⟩
      | err => cases he; exact ⟨l1, n1⟩
      | ret => cases he; exact ⟨l1, n1⟩
      | brk => cases he; exact ⟨l1, n1⟩
      | cont => cases he; exact ⟨l1, n1⟩
    | div => rw [hc] at he; exact absurd he (by simp)
    | crash k => rw [hc] at he; exact absurd he (by simp)

/-- The `whileLoop` preserves the frame-stack depth when its evaluator does. -/
theorem whileLoop_depth (ev : EvalFn) (hev : DepthPres ev) :
    ∀ (f : Nat) (i : Interp) (cond body : List Char) (cc : Code) (i2 : Interp),
      i.callframe ≠ [] →
      whileLoop ev f i cond body = EvalRes.done cc i2 →
      i2.callframe.length = i.callframe.length ∧ i2.callframe ≠ [] := by
  intro f
  induction f with
  | zero =>
    intro i cond body cc i2 hne he
    exact absurd he (by simp [whileLoop])
  | succ n ih =>
    intro i cond body cc i2 hne he
    simp only [whileLoop] at he
    cases hc : ev i cond with
    | done c1 i1 =>
      rw [hc] at he
      obtain ⟨l1, n1⟩ := hev i cond c1 i1 hne hc
      simp only at he
      split at he
      · cases he; exact ⟨l1, n1⟩
      · split at he
        · cases he; exact ⟨l1, n1⟩
        · cases hb : ev i1 body with
          | done c2 i3 =>
            rw [hb] at he
            obtain ⟨l2, n2⟩ := hev i1 body c2 i3 n1 hb
            simp only at he
            split at he
            · obtain ⟨l3, n3⟩ := ih i3 cond body cc i2 n2 he
              exact ⟨l3.trans (l2.trans l1), n3⟩
            · split at he
              · obtain ⟨l3, n3⟩ := ih i3 cond body cc i2 n2 he
                exact ⟨l3.trans (l2.trans l1), n3⟩
              · split at he
                · cases he; exact ⟨l2.trans l1, n2⟩
                · obtain ⟨l3, n3⟩ := ih i3 cond body cc i2 n2 he
                  exact ⟨l3.trans (l2.trans l1), n3⟩
          | div => rw [hb] at he; exact absurd he (by simp)
          | crash k => rw [hb] at he; exact absurd he (by simp)
    | div => rw [hc] at he; exact absurd he (by simp)
    | crash k => rw [hc] at he; exact absurd he (by simp)

/-- The `picolCommandCallProc` pushes one frame and pops it on every exit path,
so it preserves the frame-stack depth when its evaluator does. -/
theorem callProc_depth (ev : EvalFn) (hev : DepthPres ev) (alist body : List Char)
    (i : Interp) (argv : List (List Char)) (cc : Code) (i2 : Interp)
    (hne : i.callframe ≠ []) :
    picolCommandCallProc ev alist body i argv = EvalRes.done cc i2 →
    i2.callframe.length = i.callframe.length ∧ i2.callframe ≠ [] := by
  intro he
  simp only [picolCommandCallProc, picolDropCallFrame] at he
  split at he
  · cases he; exact ⟨rfl, hne⟩
  · have hpush : ({ i with callframe := [] :: i.callframe } : Interp).callframe ≠ [] := by
      simp
    obtain ⟨lf, nf⟩ := foldl_setVar_depth
      ((splitSp alist).zip (argv.drop 1)) { i with callframe := [] :: i.callframe } hpush
    cases hb : ev ((splitSp alist).zip (argv.drop 1) |>.foldl
        (fun j nv => picolSetVar j nv.1 nv.2) { i with callframe := [] :: i.callframe }) body with
    | done c3 i3 =>
      rw [hb] at he
      obtain ⟨l3, n3⟩ := hev _ body c3 i3 nf hb
      cases he
      have hlen : i3.callframe.length = i.callframe.length + 1 := by
        rw [l3, lf]; rfl
      constructor
      · rw [List.length_tail, hlen]
        rfl
      · have : 0 < i3.callframe.tail.length := by
          rw [List.length_tail, hlen]
          simp
          exact List.length_pos.mpr hne
        exact List.ne_nil_of_length_pos this
    | div => rw [hb] at he; exact absurd he (by simp)
    | crash k => rw [hb] at he; exact absurd he (by simp)

/-- Every dispatched command handler preserves the frame-stack depth when
the evaluator it recurses through does. -/
theorem dispatchCmd_depth (ev : EvalFn) (hev : DepthPres ev) (gfuel : Nat)
    (cm : Cmd) (i : Interp) (argv : List (List Char)) (cc : Code) (i2 : Interp)
    (hne : i.callframe ≠ [])
    (he : dispatchCmd ev gfuel cm i argv = EvalRes.done cc i2) :
    i2.callframe.length = i.callframe.length ∧ i2.callframe ≠ [] := by
  cases cm with
  | math => exact simpleCmd_depth ev gfuel Cmd.math i argv cc i2 hne (by simp) he
  | set => exact simpleCmd_depth ev gfuel Cmd.set i argv cc i2 hne (by simp) he
  | puts => exact simpleCmd_depth ev gfuel Cmd.puts i argv cc i2 hne (by simp) he
  | retcodes => exact simpleCmd_depth ev gfuel Cmd.retcodes i argv cc i2 hne (by simp) he
  | procDef => exact simpleCmd_depth ev gfuel Cmd.procDef i argv cc i2 hne (by simp) he
  | procReturn =>
    exact simpleCmd_depth ev gfuel Cmd.procReturn i argv cc i2 hne (by simp) he
  | condIf => exact ifCmd_depth ev hev i argv cc i2 hne he
  | loopWhile =>
    simp only [dispatchCmd, picolCommandWhile, picolArityErr] at he
    split at he
    · exact whileLoop_depth ev hev gfuel i _ _ cc i2 hne he
    · cases he; exact ⟨rfl, hne⟩
  | callproc alist body => exact callProc_depth ev hev alist body i argv cc i2 hne he

/-- The `appendTok` either continues with the interpreter it was given, or
stops with the interpolation-onto-empty-argv crash; it never produces any
other stop. -/
theorem appendTok_cases (i : Interp) (p : PParser) (prev : PType)
    (argv : List (List Char)) (w : List Char) :
    (∀ i2 p2 pr2 av2, appendTok i p prev argv w = StepRes.next i2 p2 pr2 av2 → i2 = i) ∧
    (∀ r, appendTok i p prev argv w = StepRes.stop r →
      r = EvalRes.crash CrashKind.interpEmpty) := by
  constructor
  · intro i2 p2 pr2 av2 h
    simp only [appendTok] at h
    split at h
    · cases h; rfl
    · split at h
      · exact absurd h (by simp)
      · cases h; rfl
  · intro r h
    simp only [appendTok] at h
    split at h
    · exact absurd h (by simp)
    · split at h
      · cases h; rfl
      · exact absurd h (by simp)

/-- One iteration of the token loop preserves the frame-stack depth, both
when it stops with a completed run and when it continues, provided the
evaluator it substitutes commands through does. -/
theorem tokenStep_depth (ev : EvalFn) (gfuel : Nat) (hev : DepthPres ev)
    (i : Interp) (p : PParser) (prev : PType) (argv : List (List Char))
    (hne : i.callframe ≠ []) :
    (∀ cc i2, tokenStep ev gfuel i p prev argv = StepRes.stop (EvalRes.done cc i2) →
      i2.callframe.length = i.callframe.length ∧ i2.callframe ≠ []) ∧
    (∀ i2 p2 pr2 av2, tokenStep ev gfuel i p prev argv = StepRes.next i2 p2 pr2 av2 →
      i2.callframe.length = i.callframe.length ∧ i2.callframe ≠ []) := by
  simp only [tokenStep]
  generalize picolGetToken (p.text.length + 2) p = q
  constructor
  · intro cc i2 h
    split at h
    · cases h; exact ⟨rfl, hne⟩
    · split at h
      · exact absurd h (by simp)
      · split at h
        · cases argv with
          | nil => simp only at h; exact absurd h (by simp)
          | cons a0 tail =>
            simp only at h
            cases hg : picolGetCommand i a0 with
            | none =>
              rw [hg] at h; simp only at h; cases h; exact ⟨rfl, hne⟩
            | some cm =>
              rw [hg] at h
              simp only at h
              cases hd : dispatchCmd ev gfuel cm i (a0 :: tail) with
              | done c2 i3 =>
                rw [hd] at h
                cases c2 with
                | ok => simp only at h; exact absurd h (by simp)
                | err =>
                  simp only at h; cases h
                  exact dispatchCmd_depth ev hev gfuel cm i _ _ _ hne hd
                | ret =>
                  simp only at h; cases h
                  exact dispatchCmd_depth ev hev gfuel cm i _ _ _ hne hd
                | brk =>
                  simp only at h; cases h
                  exact dispatchCmd_depth ev hev gfuel cm i _ _ _ hne hd
                | cont =>
                  simp only at h; cases h
                  exact dispatchCmd_depth ev hev gfuel cm i _ _ _ hne hd
              | div => rw [hd] at h; simp only at h; exact absurd h (by simp)
              | crash k => rw [hd] at h; simp only at h; exact absurd h (by simp)
        · split at h
          · cases hv : picolGetVar i (tokSlice q) with
            | none => rw [hv] at h; simp only at h; cases h; exact ⟨rfl, hne⟩
            | some v =>
              rw [hv] at h; simp only at h
              exact absurd ((appendTok_cases i q prev argv (asCStr v)).2 _ h) (by simp)
          · split at h
            · cases hc : ev i (tokSlice q) with
              | done c1 i1 =>
                rw [hc] at h
                cases c1 with
                | ok =>
                  simp only at h
                  exact absurd
                    ((appendTok_cases i1 q prev argv (asCStr i1.result)).2 _ h) (by simp)
                | err => simp only at h; cases h; exact hev i _ _ _ hne hc
                | ret => simp only at h; cases h; exact hev i _ _ _ hne hc
                | brk => simp only at h; cases h; exact hev i _ _ _ hne hc
                | cont => simp only at h; cases h; exact hev i _ _ _ hne hc
              | div => rw [hc] at h; simp only at h; exact absurd h (by simp)
              | crash k => rw [hc] at h; simp only at h; exact absurd h (by simp)
            · split at h
              · exact absurd ((appendTok_cases i q prev argv _).2 _ h) (by simp)
              · exact absurd ((appendTok_cases i q prev argv _).2 _ h) (by simp)
  · intro i2 p2 pr2 av2 h
    split at h
    · exact absurd h (by simp)
    · split at h
      · cases h; exact ⟨rfl, hne⟩
      · split at h
        · cases argv with
          | nil => simp only at h; cases h; exact ⟨rfl, hne⟩
          | cons a0 tail =>
            simp only at h
            cases hg : picolGetCommand i a0 with
            | none => rw [hg] at h; simp only at h; exact absurd h (by simp)
            | some cm =>
              rw [hg] at h
              simp only at h
              cases hd : dispatchCmd ev gfuel cm i (a0 :: tail) with
              | done c2 i3 =>
                rw [hd] at h
                cases c2 with
                | ok =>
                  simp only at h; cases h
                  exact dispatchCmd_depth ev hev gfuel cm i _ _ _ hne hd
                | err => simp only at h; exact absurd h (by simp)
                | ret => simp only at h; exact absurd h (by simp)
                | brk => simp only at h; exact absurd h (by simp)
                | cont => simp only at h; exact absurd h (by simp)
              | div => rw [hd] at h; simp only at h; exact absurd h (by simp)
              | crash k => rw [hd] at h; simp only at h; exact absurd h (by simp)
        · split at h
          · cases hv : picolGetVar i (tokSlice q) with
            | none => rw [hv] at h; simp only at h; exact absurd h (by simp)
            | some v =>
              rw [hv] at h; simp only at h
              have := (appendTok_cases i q prev argv (asCStr v)).1 _ _ _ _ h
              subst this
              exact ⟨rfl, hne⟩
          · split at h
            · cases hc : ev i (tokSlice q) with
              | done c1 i1 =>
                rw [hc] at h
                cases c1 with
                | ok =>
                  simp only at h
                  have := (appendTok_cases i1 q prev argv (asCStr i1.result)).1 _ _ _ _ h
                  subst this
                  exact hev i _ _ _ hne hc
                | err => simp only at h; exact absurd h (by simp)
                | ret => simp only at h; exact absurd h (by simp)
                | brk => simp only at h; exact absurd h (by simp)
                | cont => simp only at h; exact absurd h (by simp)
              | div => rw [hc] at h; simp only at h; exact absurd h (by simp)
              | crash k => rw [hc] at h; simp only at h; exact absurd h (by simp)
            · split at h
              · have := (appendTok_cases i q prev argv _).1 _ _ _ _ h
                subst this
                exact ⟨rfl, hne⟩
              · have := (appendTok_cases i q prev argv _).1 _ _ _ _ h
                subst this
                exact ⟨rfl, hne⟩

/-- The token loop preserves the frame-stack depth when its evaluator
does. -/
theorem tokenLoop_depth (ev : EvalFn) (gfuel : Nat) (hev : DepthPres ev) :
    ∀ (tf : Nat) (i : Interp) (p : PParser) (prev : PType) (argv : List (List Char))
      (cc : Code) (i2 : Interp),
      i.callframe ≠ [] →
      tokenLoop ev gfuel tf i p prev argv = EvalRes.done cc i2 →
      i2.callframe.length = i.callframe.length ∧ i2.callframe ≠ [] := by
  intro tf
  induction tf with
  | zero =>
    intro i p prev argv cc i2 hne he
    exact absurd he (by simp [tokenLoop])
  | succ n ih =>
    intro i p prev argv cc i2 hne he
    simp only [tokenLoop] at he
    cases hs : tokenStep ev gfuel i p prev argv with
    | stop r =>
      rw [hs] at he
      simp only at he
      subst he
      exact (tokenStep_depth ev gfuel hev i p prev argv hne).1 cc i2 hs
    | next i1 p1 pr1 av1 =>
      rw [hs] at he
      simp only at he
      obtain ⟨l1, n1⟩ := (tokenStep_depth ev gfuel hev i p prev argv hne).2 i1 p1 pr1 av1 hs
      obtain ⟨l2, n2⟩ := ih i1 p1 pr1 av1 cc i2 n1 he
      exact ⟨l2.trans l1, n2⟩

/-- The `picolEvalF` preserves the frame-stack depth at every fuel. -/
theorem picolEvalF_depth : ∀ fuel : Nat, DepthPres (picolEvalF fuel) := by
  intro fuel
  induction fuel with
  | zero =>
    intro i s c i2 hne he
    exact absurd he (by simp [picolEvalF])
  | succ n ih =>
    intro i s c i2 hne he
    simp only [picolEvalF] at he
    have hne0 : (picolSetResult i []).callframe ≠ [] := hne
    obtain ⟨l1, n1⟩ :=
      tokenLoop_depth (picolEvalF n) n ih ((asCStr s).length + 3)
        (picolSetResult i []) (picolInitParser (asCStr s))
        (picolInitParser (asCStr s)).ptype [] c i2 hne0 he
    exact ⟨l1, n1⟩

/-! ## Claim C5 -/

/-- Claim C5: whenever `picolEval` returns — whatever the code, through the
user-procedure dispatcher's normal, body-error and arity-mismatch paths
alike — the call-frame stack is exactly as deep as before the call (the
premise is the source's invariant that the frame stack is never null). -/
theorem C5_eval_preserves_frame_depth (fuel : Nat) (i : Interp) (s : List Char)
    (c : Code) (i2 : Interp) (hne : i.callframe ≠ [])
    (he : picolEval fuel i s = EvalRes.done c i2) :
    i2.callframe.length = i.callframe.length :=
  (picolEvalF_depth fuel i s c i2 hne he).1

/-- Witness for C5: a full run of `proc p {a} { set x 1 } ; p 7` — the
dispatcher pushes and pops a frame — returns `OK` with the global frame
stack depth 1 unchanged. -/
theorem C5_eval_preserves_frame_depth_witness :
    (picolEval 6 freshInterp ("proc p {a} { set x 1 } ; p 7".data) =
        EvalRes.done Code.ok
          { freshInterp with
            commands := (("p".data, Cmd.callproc ("a".data) (" set x 1 ".data)) ::
              freshInterp.commands),
            result := "1".data } ∧
      freshInterp.callframe ≠ []) ∧
    ({ freshInterp with
        commands := (("p".data, Cmd.callproc ("a".data) (" set x 1 ".data)) ::
          freshInterp.commands),
        result := "1".data } : Interp).callframe.length =
      freshInterp.callframe.length := by
  refine ⟨⟨by decide, by decide⟩, ?_⟩
  exact C5_eval_preserves_frame_depth 6 freshInterp ("proc p {a} { set x 1 } ; p 7".data)
    Code.ok _ (by decide) (by decide)

/-! ## Claim C10: unreachability of the empty-argv interpolation -/

/-- The `whileLoop` never reaches the interpolation crash when its evaluator
does not. -/
theorem whileLoop_noIC (ev : EvalFn) (hev : NoInterpCrash ev) :
    ∀ (f : Nat) (i : Interp) (cond body : List Char),
      whileLoop ev f i cond body ≠ EvalRes.crash CrashKind.interpEmpty := by
  intro f
  induction f with
  | zero => intro i cond body h; exact absurd h (by simp [whileLoop])
  | succ n ih =>
    intro i cond body h
    simp only [whileLoop] at h
    cases hc : ev i cond with
    | done c1 i1 =>
      rw [hc] at h
      simp only at h
      split at h
      · exact absurd h (by simp)
      · split at h
        · exact absurd h (by simp)
        · cases hb : ev i1 body with
          | done c2 i3 =>
            rw [hb] at h
            simp only at h
            split at h
            · exact ih i3 cond body h
            · split at h
              · exact ih i3 cond body h
              · split at h
                · exact absurd h (by simp)
                · exact ih i3 cond body h
          | div => rw [hb] at h; simp only at h; exact absurd h (by simp)
          | crash k =>
            rw [hb] at h
            simp only at h
            injection h with h2
            subst h2
            exact hev i1 body hb
    | div => rw [hc] at h; simp only at h; exact absurd h (by simp)
    | crash k =>
      rw [hc] at h
      simp only at h
      injection h with h2
      subst h2
      exact hev i cond hc

/-- The `picolCommandIf` never reaches the interpolation crash when its
evaluator does not. -/
theorem ifCmd_noIC (ev : EvalFn) (hev : NoInterpCrash ev) (i : Interp)
    (argv : List (List Char)) :
    picolCommandIf ev i argv ≠ EvalRes.crash CrashKind.interpEmpty := by
  intro h
  simp only [picolCommandIf, picolArityErr] at h
  split at h
  · exact absurd h (by simp)
  · cases hc : ev i (argv.getD 1 []) with
    | done c1 i1 =>
      rw [hc] at h
      cases c1 with
      | ok =>
        simp only at h
        split at h
        · exact hev i1 _ h
        · split at h
          · exact hev i1 _ h
          · exact absurd h (by simp)
      | err => simp only at h; exact absurd h (by simp)
      | ret => simp only at h; exact absurd h (by simp)
      | brk => simp only at h; exact absurd h (by simp)
      | cont => simp only at h; exact absurd h (by simp)
    | div => rw [hc] at h; simp only at h; exact absurd h (by simp)
    | crash k =>
      rw [hc] at h
      simp only at h
      injection h with h2
      subst h2
      exact hev i _ hc

/-- The `picolCommandCallProc` never reaches the interpolation crash when its
evaluator does not. -/
theorem callProc_noIC (ev : EvalFn) (hev : NoInterpCrash ev)
    (alist body : List Char) (i : Interp) (argv : List (List Char)) :
    picolCommandCallProc ev alist body i argv ≠ EvalRes.crash CrashKind.interpEmpty := by
  intro h
  simp only [picolCommandCallProc, picolDropCallFrame] at h
  split at h
  · exact absurd h (by simp)
  · cases hb : ev ((splitSp alist).zip (argv.drop 1) |>.foldl
        (fun j nv => picolSetVar j nv.1 nv.2)
        { i with callframe := [] :: i.callframe }) body with
    | done c3 i3 => rw [hb] at h; simp only at h; exact absurd h (by simp)
    | div => rw [hb] at h; simp only at h; exact absurd h (by simp)
    | crash k =>
      rw [hb] at h
      simp only at h
      injection h with h2
      subst h2
      exact hev _ body hb

/-- No dispatched handler reaches the interpolation crash when the
evaluator it recurses through does not (the math command's own crash is
the division-by-zero one). -/
theorem dispatchCmd_noIC (ev : EvalFn) (hev : NoInterpCrash ev) (gfuel : Nat)
    (cm : Cmd) (i : Interp) (argv : List (List Char)) :
    dispatchCmd ev gfuel cm i argv ≠ EvalRes.crash CrashKind.interpEmpty := by
  intro h
  cases cm with
  | math =>
    simp only [dispatchCmd, picolCommandMath, picolArityErr] at h
    split at h
    · exact absurd h (by simp)
    · split at h
      · exact absurd h (by simp)
      · exact absurd h (by simp)
  | set =>
    simp only [dispatchCmd, picolCommandSet, picolArityErr] at h
    split at h
    · exact absurd h (by simp)
    · exact absurd h (by simp)
  | puts =>
    simp only [dispatchCmd, picolCommandPuts, picolArityErr] at h
    split at h
    · exact absurd h (by simp)
    · exact absurd h (by simp)
  | retcodes =>
    simp only [dispatchCmd, picolCommandRetCodes, picolArityErr] at h
    split at h
    · exact absurd h (by simp)
    · split at h
      · exact absurd h (by simp)
      · split at h
        · exact absurd h (by simp)
        · exact absurd h (by simp)
  | procDef =>
    simp only [dispatchCmd, picolCommandProc, picolArityErr,
      picolRegisterCommand] at h
    split at h
    · exact absurd h (by simp)
    · split at h
      · exact absurd h (by simp)
      · exact absurd h (by simp)
  | procReturn =>
    simp only [dispatchCmd, picolCommandReturn, picolArityErr] at h
    split at h
    · exact absurd h (by simp)
    · exact absurd h (by simp)
  | condIf => exact ifCmd_noIC ev hev i argv h
  | loopWhile =>
    simp only [dispatchCmd, picolCommandWhile, picolArityErr] at h
    split at h
    · exact whileLoop_noIC ev hev gfuel i _ _ h
    · exact absurd h (by simp)
  | callproc alist body => exact callProc_noIC ev hev alist body i argv h

/-- Under the loop-head invariant, `appendTok` never stops the loop (in
particular it never crashes), and the words it hands to the next iteration
are non-empty. -/
theorem appendTok_inv (i : Interp) (q : PParser) (prev : PType)
    (argv : List (List Char)) (w : List Char) (hinv : ArgInv prev argv) :
    (∀ r, appendTok i q prev argv w ≠ StepRes.stop r) ∧
    (∀ i2 p2 pr2 av2, appendTok i q prev argv w = StepRes.next i2 p2 pr2 av2 →
      av2 ≠ []) := by
  constructor
  · intro r h
    simp only [appendTok] at h
    split at h
    · exact absurd h (by simp)
    · rename_i hns
      have hns2 : ¬(prev = PType.sep) ∧ ¬(prev = PType.eol) := by
        constructor
        · intro hx; exact hns (Or.inl hx)
        · intro hx; exact hns (Or.inr hx)
      have hargv : argv ≠ [] := hinv hns2.1 hns2.2
      cases hl : argv.getLast? with
      | none =>
        exact hargv (List.getLast?_eq_none_iff.mp hl)
      | some last => rw [hl] at h; simp only at h; exact absurd h (by simp)
  · intro i2 p2 pr2 av2 h
    simp only [appendTok] at h
    split at h
    · cases h; simp
    · cases hl : argv.getLast? with
      | none => rw [hl] at h; simp only at h; exact absurd h (by simp)
      | some last => rw [hl] at h; simp only at h; cases h; simp

/-- One iteration of the token loop: under the loop-head invariant, a stop
is never the interpolation crash, and a continuation re-establishes the
invariant (the SEP and EOL branches hand on their own token kind, any word
token hands on a non-empty `argv`). -/
theorem tokenStep_noIC (ev : EvalFn) (gfuel : Nat) (hev : NoInterpCrash ev)
    (i : Interp) (p : PParser) (prev : PType) (argv : List (List Char))
    (hinv : ArgInv prev argv) :
    (∀ r, tokenStep ev gfuel i p prev argv = StepRes.stop r →
      r ≠ EvalRes.crash CrashKind.interpEmpty) ∧
    (∀ i2 p2 pr2 av2, tokenStep ev gfuel i p prev argv = StepRes.next i2 p2 pr2 av2 →
      ArgInv pr2 av2) := by
  simp only [tokenStep]
  generalize picolGetToken (p.text.length + 2) p = q
  constructor
  · intro r h hcr
    subst hcr
    split at h
    · exact absurd h (by simp)
    · split at h
      · exact absurd h (by simp)
      · split at h
        · cases argv with
          | nil => simp only at h; exact absurd h (by simp)
          | cons a0 tail =>
            simp only at h
            cases hg : picolGetCommand i a0 with
            | none => rw [hg] at h; simp only at h; exact absurd h (by simp)
            | some cm =>
              rw [hg] at h
              simp only at h
              cases hd : dispatchCmd ev gfuel cm i (a0 :: tail) with
              | done c2 i3 =>
                rw [hd] at h
                cases c2 with
                | ok => simp only at h; exact absurd h (by simp)
                | err => simp only at h; exact absurd h (by simp)
                | ret => simp only at h; exact absurd h (by simp)
                | brk => simp only at h; exact absurd h (by simp)
                | cont => simp only at h; exact absurd h (by simp)
              | div => rw [hd] at h; simp only at h; exact absurd h (by simp)
              | crash k =>
                rw [hd] at h
                simp only at h
                injection h with h2
                rw [h2] at hd
                exact dispatchCmd_noIC ev hev gfuel cm i (a0 :: tail) hd
        · split at h
          · cases hv : picolGetVar i (tokSlice q) with
            | none => rw [hv] at h; simp only at h; exact absurd h (by simp)
            | some v =>
              rw [hv] at h; simp only at h
              exact (appendTok_inv i q prev argv (asCStr v) hinv).1 _ h
          · split at h
            · cases hc : ev i (tokSlice q) with
              | done c1 i1 =>
                rw [hc] at h
                cases c1 with
                | ok =>
                  simp only at h
                  exact (appendTok_inv i1 q prev argv (asCStr i1.result) hinv).1 _ h
                | err => simp only at h; exact absurd h (by simp)
                | ret => simp only at h; exact absurd h (by simp)
                | brk => simp only at h; exact absurd h (by simp)
                | cont => simp only at h; exact absurd h (by simp)
              | div => rw [hc] at h; simp only at h; exact absurd h (by simp)
              | crash k =>
                rw [hc] at h
                simp only at h
                injection h with h2
                rw [h2] at hc
                exact hev i (tokSlice q) hc
            · split at h
              · exact (appendTok_inv i q prev argv _ hinv).1 _ h
              · exact (appendTok_inv i q prev argv _ hinv).1 _ h
  · intro i2 p2 pr2 av2 h
    split at h
    · exact absurd h (by simp)
    · split at h
      · rename_i hsep
        cases h
        intro h1 _
        exact absurd hsep h1
      · split at h
        · rename_i heol
          cases argv with
          | nil =>
            simp only at h
            cases h
            intro _ h2
            exact absurd heol h2
          | cons a0 tail =>
            simp only at h
            cases hg : picolGetCommand i a0 with
            | none => rw [hg] at h; simp only at h; exact absurd h (by simp)
            | some cm =>
              rw [hg] at h
              simp only at h
              cases hd : dispatchCmd ev gfuel cm i (a0 :: tail) with
              | done c2 i3 =>
                rw [hd] at h
                cases c2 with
                | ok =>
                  simp only at h
                  cases h
                  intro _ h2
                  exact absurd heol h2
                | err => simp only at h; exact absurd h (by simp)
                | ret => simp only at h; exact absurd h (by simp)
                | brk => simp only at h; exact absurd h (by simp)
                | cont => simp only at h; exact absurd h (by simp)
              | div => rw [hd] at h; simp only at h; exact absurd h (by simp)
              | crash k => rw [hd] at h; simp only at h; exact absurd h (by simp)
        · split at h
          · cases hv : picolGetVar i (tokSlice q) with
            | none => rw [hv] at h; simp only at h; exact absurd h (by simp)
            | some v =>
              rw [hv] at h; simp only at h
              have := (appendTok_inv i q prev argv (asCStr v) hinv).2 _ _ _ _ h
              exact fun _ _ => this
          · split at h
            · cases hc : ev i (tokSlice q) with
              | done c1 i1 =>
                rw [hc] at h
                cases c1 with
                | ok =>
                  simp only at h
                  have := (appendTok_inv i1 q prev argv (asCStr i1.result) hinv).2 _ _ _ _ h
                  exact fun _ _ => this
                | err => simp only at h; exact absurd h (by simp)
                | ret => simp only at h; exact absurd h (by simp)
                | brk => simp only at h; exact absurd h (by simp)
                | cont => simp only at h; exact absurd h (by simp)
              | div => rw [hc] at h; simp only at h; exact absurd h (by simp)
              | crash k => rw [hc] at h; simp only at h; exact absurd h (by simp)
            · split at h
              · have := (appendTok_inv i q prev argv _ hinv).2 _ _ _ _ h
                exact fun _ _ => this
              · have := (appendTok_inv i q prev argv _ hinv).2 _ _ _ _ h
                exact fun _ _ => this

/-- The token loop, started under the loop-head invariant, never reaches
the interpolation crash when its evaluator does not. -/
theorem tokenLoop_noIC (ev : EvalFn) (gfuel : Nat) (hev : NoInterpCrash ev) :
    ∀ (tf : Nat) (i : Interp) (p : PParser) (prev : PType) (argv : List (List Char)),
      ArgInv prev argv →
      tokenLoop ev gfuel tf i p prev argv ≠ EvalRes.crash CrashKind.interpEmpty := by
  intro tf
  induction tf with
  | zero => intro i p prev argv hinv h; exact absurd h (by simp [tokenLoop])
  | succ n ih =>
    intro i p prev argv hinv h
    simp only [tokenLoop] at h
    cases hs : tokenStep ev gfuel i p prev argv with
    | stop r =>
      rw [hs] at h
      simp only at h
      subst h
      exact (tokenStep_noIC ev gfuel hev i p prev argv hinv).1 _ hs rfl
    | next i1 p1 pr1 av1 =>
      rw [hs] at h
      simp only at h
      exact ih i1 p1 pr1 av1
        ((tokenStep_noIC ev gfuel hev i p prev argv hinv).2 i1 p1 pr1 av1 hs) h

/-- The `picolEvalF` never reaches the interpolation crash: the parser starts
with previous kind `PT_EOL`, so the loop-head invariant holds initially and
is maintained. -/
theorem picolEvalF_noIC : ∀ fuel : Nat, NoInterpCrash (picolEvalF fuel) := by
  intro fuel
  induction fuel with
  | zero => intro i s h; exact absurd h (by simp [picolEvalF])
  | succ n ih =>
    intro i s h
    simp only [picolEvalF] at h
    exact tokenLoop_noIC (picolEvalF n) n ih ((asCStr s).length + 3)
      (picolSetResult i []) (picolInitParser (asCStr s))
      (picolInitParser (asCStr s)).ptype []
      (fun _ h2 => absurd rfl h2) h

/-! ## Claim C10 -/

/-- Claim C10: in every run of `picolEval`, on any interpreter and source,
the interpolation branch never fires with an empty argument vector — the
parser is initialized with previous kind `PT_EOL`, the SEP/EOL branches
restore that state, and every word token leaves `argv` non-empty, so the
undefined `argv[argc-1]` read (modelled as the `interpEmpty` crash) is
unreachable. -/
theorem C10_interpolation_never_on_empty_argv (fuel : Nat) (i : Interp)
    (s : List Char) :
    picolEval fuel i s ≠ EvalRes.crash CrashKind.interpEmpty :=
  picolEvalF_noIC fuel i s

/-! ## Claim C8 -/

/-- The linear search of one frame succeeds exactly when some entry's name
compares `strcmp`-equal to the queried name. -/
theorem lookupVar_isSome (f : Frame) (name : List Char) :
    (lookupVar f name).isSome = f.any (fun nv => decide (asCStr nv.1 = asCStr name)) := by
  induction f with
  | nil => rfl
  | cons hd tl ih =>
    obtain ⟨n, v⟩ := hd
    by_cases hc : asCStr n = asCStr name
    · simp [lookupVar, hc]
    · simp [lookupVar, hc, ih]

/-- Claim C8: `picolGetVar` is a linear search of the current (top) call
frame only — it returns a binding exactly when the top frame holds one for
the name, and replacing the parent frames by anything else never changes
the answer. -/
theorem C8_getvar_searches_top_frame_only :
    ∀ (i : Interp) (name : List Char) (f : Frame) (rest : List Frame),
      i.callframe = f :: rest →
      picolGetVar i name = lookupVar f name ∧
      (∀ rest2 : List Frame,
        picolGetVar { i with callframe := f :: rest2 } name = lookupVar f name) ∧
      (picolGetVar i name).isSome =
        f.any (fun nv => decide (asCStr nv.1 = asCStr name)) := by
  intro i name f rest h
  have h1 : picolGetVar i name = lookupVar f name := by
    rw [picolGetVar, h]
    rfl
  refine ⟨h1, fun rest2 => rfl, ?_⟩
  rw [h1]
  exact lookupVar_isSome f name

/-- Witness for C8: an interpreter whose top frame binds only `a` and whose
parent frame binds `b`; the lookup of `b` matches the top-frame-only
search, and in particular returns nothing although the parent binds `b`. -/
theorem C8_getvar_searches_top_frame_only_witness :
    (picolGetVar
        { level := 0, callframe := [[("a".data, "1".data)], [("b".data, "2".data)]],
          commands := [], result := [], output := [] } ("b".data) =
        lookupVar [("a".data, "1".data)] ("b".data) ∧
      (∀ rest2 : List Frame,
        picolGetVar
          { level := 0, callframe := [("a".data, "1".data)] :: rest2,
            commands := [], result := [], output := [] } ("b".data) =
          lookupVar [("a".data, "1".data)] ("b".data)) ∧
      (picolGetVar
          { level := 0, callframe := [[("a".data, "1".data)], [("b".data, "2".data)]],
            commands := [], result := [], output := [] } ("b".data)).isSome =
        [("a".data, "1".data)].any
          (fun nv => decide (asCStr nv.1 = asCStr ("b".data)))) ∧
    lookupVar [("a".data, "1".data)] ("b".data) = none :=
  ⟨C8_getvar_searches_top_frame_only _ ("b".data) [("a".data, "1".data)]
      [[("b".data, "2".data)]] rfl,
    by decide⟩
